import Mathlib

/-!
Verification of the DocXScan / DocXReplace token-matching and replacement
engine.  Strings are modelled as `List Char`; Python string primitives
(`in`, `str.replace`, `str.strip`, `str.split`) are embedded explicitly,
and the regular-expression machinery used by the replace pipeline
(`re.sub`, capture groups, replacement templates) is embedded as a small
backtracking engine over an abstract syntax tree produced by a
recursive-descent pattern reader.
-/

namespace DocX

/-- Characters of a Lean string literal, used to write concrete inputs. -/
def chars (s : String) : List Char := s.data

/-- Python `s.startswith(pat)` on character lists. -/
def startsWith : List Char → List Char → Bool
  | _, [] => true
  | [], _ :: _ => false
  | c :: s, p :: ps => if c = p then startsWith s ps else false

/-- Leftmost occurrence split: `findSplit pat s = some (p, q)` when
`s = p ++ pat ++ q` and `pat` does not occur earlier. -/
def findSplit (pat : List Char) : List Char → Option (List Char × List Char)
  | [] => if pat = [] then some ([], []) else none
  | c :: rest =>
    if startsWith (c :: rest) pat then some ([], (c :: rest).drop pat.length)
    else
      match findSplit pat rest with
      | some (p, q) => some (c :: p, q)
      | none => none

/-- Python `pat in s` (substring containment). -/
def containsSub (s pat : List Char) : Bool := (findSplit pat s).isSome

/-- Fuelled worker for `pyReplace` (replace every occurrence, left to right,
non-overlapping), mirroring Python `str.replace` with a non-empty pattern. -/
def pyReplaceGo (pat new : List Char) : Nat → List Char → List Char
  | 0, s => s
  | fuel + 1, s =>
    match findSplit pat s with
    | none => s
    | some (p, q) => p ++ new ++ pyReplaceGo pat new fuel q

/-- Python `s.replace(old, new)`: all occurrences.  An empty `old` inserts
`new` at every boundary, as Python does. -/
def pyReplace (s old new : List Char) : List Char :=
  match old with
  | [] => new ++ s.flatMap (fun c => c :: new)
  | _ :: _ => pyReplaceGo old new (s.length + 1) s

/-- Python `s.replace(old, new, 1)`: first occurrence only. -/
def pyReplaceFirst (s old new : List Char) : List Char :=
  match findSplit old s with
  | none => s
  | some (p, q) => p ++ new ++ q

/-- Python `s.strip()`. -/
def pyStrip (s : List Char) : List Char :=
  ((s.dropWhile Char.isWhitespace).reverse.dropWhile Char.isWhitespace).reverse

/-- Python `"\n".join(lines)`. -/
def joinNL : List (List Char) → List Char
  | [] => []
  | [l] => l
  | l :: ls => l ++ '\n' :: joinNL ls

/-- Python `s.split("\n")`. -/
def splitNL : List Char → List (List Char)
  | [] => [[]]
  | c :: rest =>
    match splitNL rest with
    | [] => [[c]]
    | h :: t => if c = '\n' then [] :: h :: t else (c :: h) :: t

/-! ### Regular-expression engine

Abstract syntax for the fragment of Python regular expressions exercised by
the replacement rules: literal characters, `.`, the classes `\w`, `\d`,
`\s`, grouping with capture, alternation, and the `*`, `+`, `?` repeats.
Anything outside the fragment is rejected by the reader, which models
`re.error` for malformed patterns. -/

inductive RE where
  | eps
  | chr (c : Char)
  | anyc
  | wordc
  | digitc
  | spacec
  | seq (a b : RE)
  | alt (a b : RE)
  | star (a : RE)
  | plus (a : RE)
  | opt (a : RE)
  | group (idx : Nat) (a : RE)
deriving Repr, DecidableEq

/-- Python `\w` (ASCII view). -/
def isWordChar (c : Char) : Bool := c.isAlpha || c.isDigit || c = '_'

/-- Python `\s` (ASCII view). -/
def isSpaceChar (c : Char) : Bool := c.isWhitespace

/-- One escaped atom of a pattern, or `none` for an unsupported escape
(modelling `re.error` / unsupported constructs). -/
def escAtom (c : Char) : Option RE :=
  if c = 'w' then some RE.wordc
  else if c = 'd' then some RE.digitc
  else if c = 's' then some RE.spacec
  else if c = 'n' then some (RE.chr '\n')
  else if c = 't' then some (RE.chr '\t')
  else if c = 'r' then some (RE.chr '\r')
  else if c.isAlpha || c.isDigit then none
  else some (RE.chr c)

/-- Syntactic role being read by the pattern reader. -/
inductive PK where
  | altk
  | seqk
  | itemk
  | atomk
deriving Repr, DecidableEq

/-- Recursive-descent pattern reader (fuelled, one function for the four
grammar roles): alternation, concatenation, repeated item, atom. -/
def parseP : Nat → PK → List Char → Nat → Option (RE × List Char × Nat)
  | 0, _, _, _ => none
  | fuel + 1, PK.altk, s, g =>
    match parseP fuel PK.seqk s g with
    | none => none
    | some (a, s1, g1) =>
      match s1 with
      | '|' :: s2 =>
        match parseP fuel PK.altk s2 g1 with
        | none => none
        | some (b, s3, g3) => some (RE.alt a b, s3, g3)
      | _ => some (a, s1, g1)
  | fuel + 1, PK.seqk, s, g =>
    match s with
    | [] => some (RE.eps, [], g)
    | ')' :: _ => some (RE.eps, s, g)
    | '|' :: _ => some (RE.eps, s, g)
    | _ =>
      match parseP fuel PK.itemk s g with
      | none => none
      | some (a, s1, g1) =>
        match parseP fuel PK.seqk s1 g1 with
        | none => none
        | some (b, s2, g2) => some (RE.seq a b, s2, g2)
  | fuel + 1, PK.itemk, s, g =>
    match parseP fuel PK.atomk s g with
    | none => none
    | some (a, s1, g1) =>
      match s1 with
      | '*' :: s2 => some (RE.star a, s2, g1)
      | '+' :: s2 => some (RE.plus a, s2, g1)
      | '?' :: s2 => some (RE.opt a, s2, g1)
      | _ => some (a, s1, g1)
  | fuel + 1, PK.atomk, s, g =>
    match s with
    | [] => none
    | '(' :: s1 =>
      match parseP fuel PK.altk s1 (g + 1) with
      | none => none
      | some (a, s2, g2) =>
        match s2 with
        | ')' :: s3 => some (RE.group (g + 1) a, s3, g2)
        | _ => none
    | '.' :: s1 => some (RE.anyc, s1, g)
    | '\\' :: c :: s1 =>
      match escAtom c with
      | none => none
      | some a => some (a, s1, g)
    | '\\' :: [] => none
    | ')' :: _ => none
    | '|' :: _ => none
    | '*' :: _ => none
    | '+' :: _ => none
    | '?' :: _ => none
    | '[' :: _ => none
    | ']' :: _ => none
    | '^' :: _ => none
    | '$' :: _ => none
    | c :: s1 =>
      if c = '{' ∨ c = '}' then none else some (RE.chr c, s1, g)

/-- Compile a pattern string; `some (r, n)` gives the tree and the number of
capture groups, `none` models `re.error`. -/
def parseRE (s : List Char) : Option (RE × Nat) :=
  match parseP ((s.length + 2) * 16) PK.altk s 0 with
  | none => none
  | some (r, rest, g) => if rest = [] then some (r, g) else none

/-- Recorded captures, most recent write first. -/
def Caps := List (Nat × List Char)

/-- Look up the last value captured for group `i`. -/
def capLookup (i : Nat) : Caps → Option (List Char)
  | [] => none
  | (j, v) :: rest => if j = i then some v else capLookup i rest

/-- Backtracking matcher.  Results are ordered by Python preference
(greedy repeats, left alternative first); each result is the unconsumed
suffix paired with the captures. -/
def mre : Nat → RE → List Char → Caps → List (List Char × Caps)
  | 0, _, _, _ => []
  | fuel + 1, r, s, k =>
    match r with
    | RE.eps => [(s, k)]
    | RE.chr c =>
      match s with
      | [] => []
      | x :: xs => if x = c then [(xs, k)] else []
    | RE.anyc =>
      match s with
      | [] => []
      | x :: xs => if x = '\n' then [] else [(xs, k)]
    | RE.wordc =>
      match s with
      | [] => []
      | x :: xs => if isWordChar x then [(xs, k)] else []
    | RE.digitc =>
      match s with
      | [] => []
      | x :: xs => if x.isDigit then [(xs, k)] else []
    | RE.spacec =>
      match s with
      | [] => []
      | x :: xs => if isSpaceChar x then [(xs, k)] else []
    | RE.seq a b => (mre fuel a s k).flatMap (fun p => mre fuel b p.1 p.2)
    | RE.alt a b => mre fuel a s k ++ mre fuel b s k
    | RE.opt a => mre fuel a s k ++ [(s, k)]
    | RE.star a =>
      ((mre fuel a s k).flatMap
        (fun p => if p.1.length < s.length then mre fuel (RE.star a) p.1 p.2 else [p])) ++ [(s, k)]
    | RE.plus a =>
      (mre fuel a s k).flatMap
        (fun p => if p.1.length < s.length then mre fuel (RE.star a) p.1 p.2 else [p])
    | RE.group i a =>
      (mre fuel a s k).map (fun p => (p.1, (i, s.take (s.length - p.1.length)) :: p.2))

/-- Structural size of a pattern, used to budget matcher fuel. -/
def sizeRE : RE → Nat
  | RE.eps | RE.chr _ | RE.anyc | RE.wordc | RE.digitc | RE.spacec => 1
  | RE.seq a b | RE.alt a b => sizeRE a + sizeRE b + 1
  | RE.star a | RE.plus a | RE.opt a | RE.group _ a => sizeRE a + 1

/-- What a Python match object exposes: `group(0)` and `groups()`. -/
structure MatchData where
  whole : List Char
  groups : List (Option (List Char))
deriving Repr, DecidableEq

/-- `groups()` for a pattern with `n` capture groups. -/
def groupsOf (n : Nat) (k : Caps) : List (Option (List Char)) :=
  (List.range n).map (fun j => capLookup (j + 1) k)

/-- Anchored match attempt at the head of `s` (Python `match` semantics). -/
def matchAt (r : RE) (n : Nat) (s : List Char) : Option (MatchData × List Char) :=
  match mre ((s.length + 2) * (sizeRE r + 2) + 16) r s [] with
  | [] => none
  | (s', k) :: _ => some ({ whole := s.take (s.length - s'.length), groups := groupsOf n k }, s')

/-- Python `search` semantics: try each start position left to right; on
success return the text before the match, the match data and the rest. -/
def searchSplit (r : RE) (n : Nat) : List Char → Option (List Char × MatchData × List Char)
  | [] =>
    match matchAt r n [] with
    | some (md, rest) => some ([], md, rest)
    | none => none
  | c :: t =>
    match matchAt r n (c :: t) with
    | some (md, rest) => some ([], md, rest)
    | none => (searchSplit r n t).map (fun p => (c :: p.1, p.2.1, p.2.2))

/-- The scan loop of Python `re.sub` with a fallible replacement callback:
replace every non-overlapping match left to right; `none` from the callback
models an exception escaping `re.sub`. -/
def subLoop (r : RE) (n : Nat) (cb : MatchData → Option (List Char)) :
    Nat → List Char → Option (List Char)
  | 0, _ => none
  | fuel + 1, s =>
    match searchSplit r n s with
    | none => some s
    | some (pre, md, rest) =>
      match cb md with
      | none => none
      | some rep =>
        if md.whole.isEmpty then
          match rest with
          | [] => some (pre ++ rep)
          | c :: rest' =>
            match subLoop r n cb fuel rest' with
            | none => none
            | some tail => some (pre ++ rep ++ c :: tail)
        else
          match subLoop r n cb fuel rest with
          | none => none
          | some tail => some (pre ++ rep ++ tail)

/-- The `{{match}}` placeholder, written as characters. -/
def phL : List Char := ['{', '{', 'm', 'a', 't', 'c', 'h', '}', '}']

/-- Per-group filling loop of `replace_with_match`: each capture group in
turn replaces the first remaining placeholder occurrence; a `None` group
models the `TypeError` Python raises in `str.replace`. -/
def fillGroups : List Char → List (Option (List Char)) → Option (List Char)
  | t, [] => some t
  | t, some g :: gs => fillGroups (pyReplaceFirst t phL g) gs
  | _, none :: _ => none

/-- The substitution callback `replace_with_match` built inside
`perform_replacement_in_doc`: with capture groups, fill placeholders one
group at a time; with no groups, replace every placeholder by the whole
matched text. -/
def replaceWithMatch (target : List Char) (m : MatchData) : Option (List Char) :=
  if m.groups.isEmpty then some (pyReplace target phL m.whole)
  else fillGroups target m.groups

/-- One piece of a compiled `re.sub` string-replacement template. -/
inductive TItem where
  | lit (c : Char)
  | gref (n : Nat)
deriving Repr, DecidableEq

/-- Python's replacement-template reader (`\1` is a group reference, `\\` a
backslash, unknown letter escapes are `re.error`, unknown punctuation
escapes keep both characters). -/
def parseTemplate : List Char → Option (List TItem)
  | [] => some []
  | c :: rest =>
    if c = '\\' then
      match rest with
      | [] => none
      | d :: rest' =>
        if d = '0' then (parseTemplate rest').map (fun ts => TItem.lit (Char.ofNat 0) :: ts)
        else if d.isDigit then
          (parseTemplate rest').map (fun ts => TItem.gref (d.toNat - 48) :: ts)
        else if d = '\\' then (parseTemplate rest').map (fun ts => TItem.lit '\\' :: ts)
        else if d = 'n' then (parseTemplate rest').map (fun ts => TItem.lit '\n' :: ts)
        else if d = 't' then (parseTemplate rest').map (fun ts => TItem.lit '\t' :: ts)
        else if d = 'r' then (parseTemplate rest').map (fun ts => TItem.lit '\r' :: ts)
        else if d.isAlpha then none
        else (parseTemplate rest').map (fun ts => TItem.lit '\\' :: TItem.lit d :: ts)
    else (parseTemplate rest).map (fun ts => TItem.lit c :: ts)

/-- Expand a compiled template at one match; `none` models an invalid or
unmatched group reference. -/
def expandTemplate : List TItem → MatchData → Option (List Char)
  | [], _ => some []
  | TItem.lit c :: ts, md => (expandTemplate ts md).map (fun r => c :: r)
  | TItem.gref 0 :: ts, md => (expandTemplate ts md).map (fun r => md.whole ++ r)
  | TItem.gref (n + 1) :: ts, md =>
    match md.groups.get? n with
    | some (some g) => (expandTemplate ts md).map (fun r => g ++ r)
    | _ => none

/-- Apply one replacement rule to one paragraph's text, `none` for any of
the error paths the source catches (`re.error` on the pattern or the
template, an exception inside the substitution callback). -/
def tryApplyRule (regexMode : Bool) (t : List Char) (rule : List Char × List Char) :
    Option (List Char) :=
  if regexMode then
    match parseRE rule.1 with
    | none => none
    | some (r, n) =>
      if containsSub rule.2 phL then subLoop r n (replaceWithMatch rule.2) (t.length + 1) t
      else
        match parseTemplate rule.2 with
        | none => none
        | some tpl => subLoop r n (expandTemplate tpl) (t.length + 1) t
  else
    some (if containsSub t rule.1 then pyReplace t rule.1 rule.2 else t)

/-- The per-rule step of `perform_replacement_in_doc`'s paragraph loop: a
failing rule is skipped and leaves the text unchanged. -/
def applyOneRule (regexMode : Bool) (t : List Char) (rule : List Char × List Char) :
    List Char :=
  (tryApplyRule regexMode t rule).getD t

/-- The ReplacementEngine: apply every rule in insertion order to the
cumulative text (`applyRules` of the specification, the inner loop of
`perform_replacement_in_doc`). -/
def applyRules (rules : List (List Char × List Char)) (regexMode : Bool) (t : List Char) :
    List Char :=
  rules.foldl (applyOneRule regexMode) t

/-! ### Specification-side definitions (named from the spec's words) -/

/-- Modelled from the spec: positional placeholder filling — group 1 fills
the first placeholder occurrence, group 2 the second, and so on; leftover
placeholders stay. -/
def specFill : List Char → List (List Char) → List Char
  | t, [] => t
  | t, g :: gs =>
    match findSplit phL t with
    | none => t
    | some (p, q) => p ++ g ++ specFill q gs

/-- A prefix is safe when no placeholder occurrence can start inside it,
whatever text follows. -/
def goodPre (A : List Char) : Prop :=
  ∀ s t, s ≠ [] → s <:+ A → startsWith (s ++ t) phL = false

/-- Modelled from the spec: regex substitution inserting the target
verbatim for every match ("literal target"). -/
def specVerbatimSub (r : RE) (n : Nat) (target t : List Char) : List Char :=
  (subLoop r n (fun _ => some target) (t.length + 1) t).getD t

/-- Modelled from the spec: a scan pattern tested against a line as a
regular expression with unanchored `search` semantics. -/
def specRegexSearchHit (pat line : List Char) : Bool :=
  match parseRE pat with
  | none => false
  | some (r, n) => (searchSplit r n line).isSome

/-! ### Scan pipeline -/

/-- Line test of the legacy scanner `get_matching_lines_combined`:
`re.search(pattern, line)`. -/
def v1LineHit (pat line : List Char) : Bool :=
  match parseRE pat with
  | none => false
  | some (r, n) => (searchSplit r n line).isSome

/-- Matched-line collection of `get_matching_lines_combined` (legacy
scanner): for each line in document order, append the stripped line once
per pattern that search-matches it. -/
def get_matching_lines_combined (patterns lines : List (List Char)) : List (List Char) :=
  lines.foldl
    (fun acc line =>
      patterns.foldl
        (fun acc2 p => if v1LineHit p line then acc2 ++ [pyStrip line] else acc2)
        acc)
    []

/-- Matched-line collection inlined in `scan_documents` (v3.0 scanner):
for each token in configured order, if the token occurs in the
newline-joined full text, append every stripped line containing it. -/
def scan_documents_matched_lines (patterns lines : List (List Char)) : List (List Char) :=
  let full_text := joinNL lines
  patterns.foldl
    (fun acc token =>
      if containsSub full_text token then
        acc ++ ((splitNL full_text).filter (fun line => containsSub line token)).map pyStrip
      else acc)
    []

/-- Modelled from the spec: excerpts in document order — for each line in
order, one stripped copy per pattern hit (v3.0's literal hit notion). -/
def specDocOrderExcerpts (patterns lines : List (List Char)) : List (List Char) :=
  lines.flatMap (fun l => (patterns.filter (fun p => containsSub l p)).map (fun _ => pyStrip l))

/-! ### Document processing and the batch driver -/

/-- A structured document: top-level paragraphs, and tables of rows of
cells of paragraphs, each paragraph a plain text. -/
structure Document where
  paragraphs : List (List Char)
  tables : List (List (List (List (List Char))))
deriving Repr, DecidableEq

/-- One audit row of `perform_replacement_in_doc`. -/
structure Detail where
  location : List Char
  original : List Char
  modified : List Char
deriving Repr, DecidableEq

/-- Decimal digits of a number, for location labels. -/
def natChars (n : Nat) : List Char := (Nat.repr n).data

/-- Preview truncation used in replacement details. -/
def truncPreview (limit : Nat) (s : List Char) : List Char :=
  if limit < s.length then s.take limit ++ ['.', '.', '.'] else s

/-- Top-level paragraph pass of `perform_replacement_in_doc`. -/
def procParas (rules : List (List Char × List Char)) (rm : Bool) :
    List (List Char) → Nat → Nat × List Detail × List (List Char)
  | [], _ => (0, [], [])
  | p :: rest, idx =>
    let t := applyRules rules rm p
    let r := procParas rules rm rest (idx + 1)
    if t ≠ p then
      (r.1 + 1,
       { location := chars "paragraph_" ++ natChars idx,
         original := truncPreview 100 p, modified := truncPreview 100 t } :: r.2.1,
       t :: r.2.2)
    else (r.1, r.2.1, p :: r.2.2)

/-- Cell paragraph pass (table branch of `perform_replacement_in_doc`). -/
def procCellParas (rules : List (List Char × List Char)) (rm : Bool) (label : List Char) :
    List (List Char) → Nat → Nat × List Detail × List (List Char)
  | [], _ => (0, [], [])
  | p :: rest, idx =>
    let t := applyRules rules rm p
    let r := procCellParas rules rm label rest (idx + 1)
    if t ≠ p then
      (r.1 + 1,
       { location := label ++ chars "_para_" ++ natChars idx,
         original := truncPreview 50 p, modified := truncPreview 50 t } :: r.2.1,
       t :: r.2.2)
    else (r.1, r.2.1, p :: r.2.2)

/-- Cells of one row. -/
def procCells (rules : List (List Char × List Char)) (rm : Bool) (label : List Char) :
    List (List (List Char)) → Nat → Nat × List Detail × List (List (List Char))
  | [], _ => (0, [], [])
  | cell :: rest, idx =>
    let rc := procCellParas rules rm (label ++ chars "_cell_" ++ natChars idx) cell 0
    let r := procCells rules rm label rest (idx + 1)
    (rc.1 + r.1, rc.2.1 ++ r.2.1, rc.2.2 :: r.2.2)

/-- Rows of one table. -/
def procRows (rules : List (List Char × List Char)) (rm : Bool) (label : List Char) :
    List (List (List (List Char))) → Nat → Nat × List Detail × List (List (List (List Char)))
  | [], _ => (0, [], [])
  | row :: rest, idx =>
    let rr := procCells rules rm (label ++ chars "_row_" ++ natChars idx) row 0
    let r := procRows rules rm label rest (idx + 1)
    (rr.1 + r.1, rr.2.1 ++ r.2.1, rr.2.2 :: r.2.2)

/-- All tables. -/
def procTables (rules : List (List Char × List Char)) (rm : Bool) :
    List (List (List (List (List Char)))) → Nat →
    Nat × List Detail × List (List (List (List (List Char))))
  | [], _ => (0, [], [])
  | table :: rest, idx =>
    let rt := procRows rules rm (chars "table_" ++ natChars idx) table 0
    let r := procTables rules rm rest (idx + 1)
    (rt.1 + r.1, rt.2.1 ++ r.2.1, rt.2.2 :: r.2.2)

/-- `perform_replacement_in_doc`: apply the rule set to every top-level and
table-cell paragraph; return the replacement count, the ordered detail
rows, and the updated document. -/
def perform_replacement_in_doc (doc : Document) (rules : List (List Char × List Char))
    (rm : Bool) : Nat × List Detail × Document :=
  let rp := procParas rules rm doc.paragraphs 0
  let rt := procTables rules rm doc.tables 0
  (rp.1 + rt.1, rp.2.1 ++ rt.2.1, { paragraphs := rp.2.2, tables := rt.2.2 })

/-- Count of paragraphs (top level and inside tables) whose text the rule
set changes. -/
def changedParaCount (doc : Document) (rules : List (List Char × List Char)) (rm : Bool) : Nat :=
  (doc.paragraphs.countP (fun p => decide (applyRules rules rm p ≠ p))) +
    ((doc.tables.map
      (fun table =>
        (table.map
          (fun row =>
            (row.map
              (fun cell => cell.countP (fun p => decide (applyRules rules rm p ≠ p)))).sum)).sum)).sum)

/-- Replace-pipeline run modes. -/
inductive RunMode where
  | dryRun
  | copies
  | inPlace
deriving Repr, DecidableEq

/-- The modelled file system: an association list from path to document. -/
def fsLookup : List (String × Document) → String → Option Document
  | [], _ => none
  | (q, d) :: rest, p => if q = p then some d else fsLookup rest p

/-- Overwrite the document stored at a path. -/
def fsUpdate : List (String × Document) → String → Document → List (String × Document)
  | [], _, _ => []
  | (q, d) :: rest, p, d' => if q = p then (q, d') :: rest else (q, d) :: fsUpdate rest p d'

/-- Output path used by `create_output_copy` for one source path. -/
def outPathFor (p : String) : String := "__output__/" ++ p

/-- State threaded through the batch loop of `process_replacements`. -/
structure BatchState where
  fs : List (String × Document)
  processed : Nat
  modified : Nat
  totalRepl : Nat
  outDirCreated : Bool
  opened : List String
  stoppedEarly : Bool
deriving Repr, DecidableEq

/-- Processing of one existing file inside the batch loop: open it, run the
replacement, and (depending on the run mode) save the result; dry run saves
nothing. -/
def procOne (mode : RunMode) (rules : List (List Char × List Char)) (rm : Bool)
    (st : BatchState) (p : String) (doc : Document) : BatchState :=
  let res := perform_replacement_in_doc doc rules rm
  let st1 := { st with opened := st.opened ++ [p] }
  let st2 :=
    if 0 < res.1 then
      match mode with
      | RunMode.dryRun => { st1 with modified := st1.modified + 1 }
      | RunMode.copies =>
        { st1 with fs := st1.fs ++ [(outPathFor p, res.2.2)],
                   modified := st1.modified + 1,
                   totalRepl := st1.totalRepl + res.1,
                   outDirCreated := true }
      | RunMode.inPlace =>
        { st1 with fs := fsUpdate st1.fs p res.2.2,
                   modified := st1.modified + 1,
                   totalRepl := st1.totalRepl + res.1 }
    else st1
  { st2 with processed := st2.processed + 1 }

/-- The per-file loop of `process_replacements`: poll the stop flag at each
file boundary, skip missing files, open and process the rest, and write
according to the run mode (dry run writes nothing). -/
def procFiles (mode : RunMode) (rules : List (List Char × List Char)) (rm : Bool)
    (stopFlag : Nat → Bool) : List String → Nat → BatchState → BatchState
  | [], _, st => st
  | p :: rest, i, st =>
    if stopFlag i then { st with stoppedEarly := true }
    else
      match fsLookup st.fs p with
      | none => procFiles mode rules rm stopFlag rest (i + 1) st
      | some doc => procFiles mode rules rm stopFlag rest (i + 1) (procOne mode rules rm st p doc)

/-- Initial batch state over a given file system. -/
def initState (fs : List (String × Document)) : BatchState :=
  { fs := fs, processed := 0, modified := 0, totalRepl := 0,
    outDirCreated := false, opened := [], stoppedEarly := false }

/-- `process_replacements`: run the batch loop from a fresh state. -/
def process_replacements (mode : RunMode) (rules : List (List Char × List Char)) (rm : Bool)
    (stopFlag : Nat → Bool) (files : List String) (fs : List (String × Document)) : BatchState :=
  procFiles mode rules rm stopFlag files 0 (initState fs)

/-- Modelled from the spec: the number of would-be-modified files a run
reports, following the same stop/missing-file path as the loop. -/
def specWouldModify (rules : List (List Char × List Char)) (rm : Bool)
    (stopFlag : Nat → Bool) : List String → Nat → List (String × Document) → Nat
  | [], _, _ => 0
  | p :: rest, i, fs =>
    if stopFlag i then 0
    else
      match fsLookup fs p with
      | none => specWouldModify rules rm stopFlag rest (i + 1) fs
      | some doc =>
        (if 0 < (perform_replacement_in_doc doc rules rm).1 then 1 else 0) +
          specWouldModify rules rm stopFlag rest (i + 1) fs

/-! ### Basic string lemmas -/

theorem startsWith_iff : ∀ (p s : List Char), startsWith s p = true ↔ p <+: s := by
  intro p
  induction p with
  | nil => intro s; simp [startsWith]
  | cons ph pt ih =>
    intro s
    cases s with
    | nil => simp [startsWith]
    | cons c cs =>
      rw [List.cons_prefix_cons]
      simp only [startsWith]
      by_cases h : c = ph
      · simp [h, ih cs]
      · simp [h, Ne.symm h]

theorem findSplit_eq : ∀ {s pat p q : List Char}, findSplit pat s = some (p, q) →
    s = p ++ pat ++ q := by
  intro s
  induction s with
  | nil =>
    intro pat p q h
    by_cases hp : pat = [] <;> simp [findSplit, hp] at h
    simp [hp, h.1, h.2]
  | cons c cs ih =>
    intro pat p q h
    simp only [findSplit] at h
    split at h
    · next hsw =>
      injection h with h'
      injection h' with h1 h2
      subst h1
      have hpre : pat <+: c :: cs := (startsWith_iff pat (c :: cs)).mp hsw
      have := List.prefix_iff_eq_take.mp hpre
      subst h2
      conv_lhs => rw [← List.take_append_drop pat.length (c :: cs)]
      rw [← this]
      simp
    · next hsw =>
      cases hfs : findSplit pat cs with
      | none => rw [hfs] at h; exact absurd h (by simp)
      | some pq =>
        rw [hfs] at h
        obtain ⟨p', q'⟩ := pq
        injection h with h'
        injection h' with h1 h2
        subst h2
        rw [← h1]
        have := ih hfs
        simp [this]

theorem containsSub_false_findSplit {s pat : List Char} (h : containsSub s pat = false) :
    findSplit pat s = none := by
  unfold containsSub at h
  cases hfs : findSplit pat s with
  | none => rfl
  | some v => rw [hfs] at h; simp at h

theorem findSplit_min : ∀ {s pat p q : List Char}, pat ≠ [] → findSplit pat s = some (p, q) →
    containsSub p pat = false := by
  intro s
  induction s with
  | nil =>
    intro pat p q hp h
    simp [findSplit, hp] at h
  | cons c cs ih =>
    intro pat p q hp h
    simp only [findSplit] at h
    split at h
    · next hsw =>
      injection h with h'
      injection h' with h1 _
      subst h1
      cases pat with
      | nil => exact absurd rfl hp
      | cons pc pt => simp [containsSub, findSplit]
    · next hsw =>
      cases hfs : findSplit pat cs with
      | none => rw [hfs] at h; exact absurd h (by simp)
      | some pq =>
        rw [hfs] at h
        obtain ⟨p', q'⟩ := pq
        injection h with h'
        injection h' with h1 h2
        subst h1
        have hcs := findSplit_eq hfs
        have hrec : containsSub p' pat = false := ih hp hfs
        have hnone : findSplit pat p' = none := containsSub_false_findSplit hrec
        have hsw2 : startsWith (c :: p') pat = false := by
          cases hsw3 : startsWith (c :: p') pat with
          | false => rfl
          | true =>
            have hpre : pat <+: c :: p' := (startsWith_iff pat (c :: p')).mp hsw3
            have hpre2 : c :: p' <+: c :: cs := by
              rw [List.cons_prefix_cons]
              exact ⟨rfl, hcs ▸ (List.prefix_append p' (pat ++ q')).trans (by simp [List.append_assoc])⟩
            have := (startsWith_iff pat (c :: cs)).mpr (hpre.trans hpre2)
            rw [this] at hsw
            exact absurd rfl hsw
        simp [containsSub, findSplit, hsw2, hnone]

theorem containsSub_append_mid : ∀ (u pat v : List Char), containsSub (u ++ pat ++ v) pat = true := by
  intro u
  induction u with
  | nil =>
    intro pat v
    cases pat with
    | nil => cases v <;> simp [containsSub, findSplit, startsWith]
    | cons pc pt =>
      have hsw : startsWith (pc :: (pt ++ v)) (pc :: pt) = true :=
        (startsWith_iff _ _).mpr (by rw [← List.cons_append]; exact List.prefix_append _ _)
      simp only [List.nil_append, containsSub]
      rw [List.cons_append, findSplit, if_pos hsw]
      rfl
  | cons c u' ih =>
    intro pat v
    simp only [List.cons_append]
    simp only [containsSub, findSplit]
    split
    · simp
    · have := ih pat v
      unfold containsSub at this
      cases hfs : findSplit pat (u' ++ pat ++ v) with
      | none => rw [hfs] at this; simp at this
      | some pq => simp

theorem containsSub_iff {s pat : List Char} : containsSub s pat = true ↔ pat <:+: s := by
  constructor
  · intro h
    unfold containsSub at h
    cases hfs : findSplit pat s with
    | none => rw [hfs] at h; simp at h
    | some pq =>
      obtain ⟨p, q⟩ := pq
      have := findSplit_eq hfs
      subst this
      exact List.infix_append p pat q
  · intro h
    obtain ⟨u, v, huv⟩ := h
    subst huv
    exact containsSub_append_mid u pat v

theorem findSplit_shift {pat : List Char} : ∀ (A t : List Char),
    (∀ s, s ≠ [] → s <:+ A → startsWith (s ++ t) pat = false) →
    findSplit pat (A ++ t) = (findSplit pat t).map (fun pq => (A ++ pq.1, pq.2)) := by
  intro A
  induction A with
  | nil =>
    intro t _
    cases hfs : findSplit pat t with
    | none => simp [hfs]
    | some pq => simp [hfs]
  | cons c A' ih =>
    intro t h
    have hsw : startsWith ((c :: A') ++ t) pat = false :=
      h (c :: A') (by simp) (List.suffix_refl _)
    rw [show startsWith ((c :: A') ++ t) pat = startsWith (c :: (A' ++ t)) pat by rw [List.cons_append]] at hsw
    have ih2 := ih t (fun s hs hsuf => h s hs (hsuf.trans (List.suffix_cons c A')))
    rw [List.cons_append, findSplit, hsw]
    simp only [Bool.false_eq_true, if_false]
    rw [ih2]
    cases hfs : findSplit pat t with
    | none => simp
    | some pq => simp

theorem suffix_append_cases {α : Type} : ∀ {a b s : List α}, s <:+ a ++ b →
    s <:+ b ∨ ∃ s1, s = s1 ++ b ∧ s1 <:+ a := by
  intro a
  induction a with
  | nil => intro b s h; exact Or.inl (by simpa using h)
  | cons c a' ih =>
    intro b s h
    rw [List.cons_append, List.suffix_cons_iff] at h
    cases h with
    | inl h => exact Or.inr ⟨c :: a', by simp [h], List.suffix_refl _⟩
    | inr h =>
      cases ih h with
      | inl h2 => exact Or.inl h2
      | inr h2 =>
        obtain ⟨s1, heq, hsuf⟩ := h2
        exact Or.inr ⟨s1, heq, hsuf.trans (List.suffix_cons c a')⟩

/-! ### Placeholder-filling lemmas -/

theorem phL_prefix_head {c : Char} {xs : List Char} (h : phL <+: c :: xs) : c = '{' := by
  simp only [phL] at h
  rw [List.cons_prefix_cons] at h
  exact h.1.symm

theorem goodPre_base {p g : List Char} (hp : containsSub p phL = false) (hg : g ≠ [])
    (hlb : '{' ∉ g) (hrb : '}' ∉ g) (hni : containsSub phL g = false) : goodPre (p ++ g) := by
  intro s t hs hsuf
  rcases suffix_append_cases hsuf with hsg | ⟨s2, rfl, hs2⟩
  · cases s with
    | nil => exact absurd rfl hs
    | cons sc stl =>
      cases hsw : startsWith ((sc :: stl) ++ t) phL with
      | false => rfl
      | true =>
        have hpre : phL <+: sc :: (stl ++ t) := by
          have := (startsWith_iff _ _).mp hsw
          rwa [List.cons_append] at this
        have hhd : sc = '{' := phL_prefix_head hpre
        have hmem : sc ∈ g := List.IsSuffix.mem (List.mem_cons_self sc stl) hsg
        exact absurd (hhd ▸ hmem) hlb
  · cases hsw : startsWith ((s2 ++ g) ++ t) phL with
    | false => rfl
    | true =>
      have hpre : phL <+: s2 ++ (g ++ t) := by
        have := (startsWith_iff _ _).mp hsw
        rwa [List.append_assoc] at this
      by_cases hlen : phL.length ≤ s2.length
      · have hps2 : phL <+: s2 := (List.isPrefix_append_of_length hlen).mp hpre
        have hcp : containsSub p phL = true :=
          containsSub_iff.mpr (List.infix_iff_prefix_suffix.mpr ⟨s2, hps2, hs2⟩)
        simp [hcp] at hp
      · push_neg at hlen
        have hs2pre : s2 <+: phL :=
          List.prefix_of_prefix_length_le (List.prefix_append s2 (g ++ t)) hpre (le_of_lt hlen)
        obtain ⟨d, hd⟩ := hs2pre
        have hdpre : d <+: g ++ t := by
          have hx : s2 ++ d <+: s2 ++ (g ++ t) := hd ▸ hpre
          exact (List.prefix_append_right_inj s2).mp hx
        have hddrop : d = phL.drop s2.length := by
          rw [← hd, List.drop_left]
        by_cases hdg : d.length ≤ g.length
        · have hdg2 : d <+: g := (List.isPrefix_append_of_length hdg).mp hdpre
          have hrbmem : '}' ∈ d := by
            rw [hddrop]
            have hk9 : s2.length < 9 := by
              have h9 : phL.length = 9 := by decide
              omega
            exact (by decide : ∀ k, k < 9 → '}' ∈ phL.drop k) s2.length hk9
          exact absurd (List.IsPrefix.mem hrbmem hdg2) hrb
        · push_neg at hdg
          have hgd : g <+: d :=
            List.prefix_of_prefix_length_le (List.prefix_append g t) hdpre (le_of_lt hdg)
          have hinf : containsSub phL g = true :=
            containsSub_iff.mpr (List.infix_iff_prefix_suffix.mpr ⟨d, hgd, ⟨s2, hd⟩⟩)
          simp [hinf] at hni

theorem goodPre_nil : goodPre [] := by
  intro s t hs hsuf
  exact absurd (List.suffix_nil.mp hsuf) hs

theorem goodPre_extend {A p g : List Char} (hA : goodPre A) (hp : containsSub p phL = false)
    (hg : g ≠ []) (hlb : '{' ∉ g) (hrb : '}' ∉ g) (hni : containsSub phL g = false) :
    goodPre (A ++ (p ++ g)) := by
  intro s t hs hsuf
  rcases suffix_append_cases hsuf with hsg | ⟨s1, rfl, hs1⟩
  · exact goodPre_base hp hg hlb hrb hni s t hs hsg
  · by_cases h1 : s1 = []
    · subst h1
      rw [List.nil_append]
      exact goodPre_base hp hg hlb hrb hni (p ++ g) t
        (by simp [List.append_eq_nil, hg]) (List.suffix_refl _)
    · have hx := hA s1 ((p ++ g) ++ t) h1 hs1
      rwa [← List.append_assoc] at hx

theorem fillGroups_noOcc : ∀ (gs : List (List Char)) (t : List Char),
    containsSub t phL = false → fillGroups t (gs.map some) = some t := by
  intro gs
  induction gs with
  | nil => intro t _; rfl
  | cons g gs ih =>
    intro t h
    have hfs := containsSub_false_findSplit h
    have h2 : pyReplaceFirst t phL g = t := by simp [pyReplaceFirst, hfs]
    simp only [List.map_cons, fillGroups, h2]
    exact ih t h

theorem fillGroups_total : ∀ (gs : List (List Char)) (t : List Char),
    ∃ u, fillGroups t (gs.map some) = some u := by
  intro gs
  induction gs with
  | nil => intro t; exact ⟨t, rfl⟩
  | cons g gs ih =>
    intro t
    simp only [List.map_cons, fillGroups]
    exact ih (pyReplaceFirst t phL g)

theorem fillGroups_append : ∀ (gs : List (List Char)) (A q : List Char), goodPre A →
    (∀ g ∈ gs, g ≠ [] ∧ '{' ∉ g ∧ '}' ∉ g ∧ containsSub phL g = false) →
    fillGroups (A ++ q) (gs.map some) = (fillGroups q (gs.map some)).map (fun x => A ++ x) := by
  intro gs
  induction gs with
  | nil => intro A q _ _; rfl
  | cons g gs ih =>
    intro A q hA hgs
    obtain ⟨hgne, hglb, hgrb, hgni⟩ := hgs g (List.mem_cons_self g gs)
    have hrest : ∀ g' ∈ gs, g' ≠ [] ∧ '{' ∉ g' ∧ '}' ∉ g' ∧ containsSub phL g' = false :=
      fun g' hm => hgs g' (List.mem_cons_of_mem g hm)
    have hshift := findSplit_shift A q (fun s hs hsuf => hA s q hs hsuf)
    simp only [List.map_cons, fillGroups]
    cases hfs : findSplit phL q with
    | none =>
      have h1 : pyReplaceFirst (A ++ q) phL g = A ++ q := by
        rw [hfs] at hshift
        simp [pyReplaceFirst, hshift]
      have h2 : pyReplaceFirst q phL g = q := by simp [pyReplaceFirst, hfs]
      rw [h1, h2]
      exact ih A q hA hrest
    | some pq =>
      obtain ⟨p2, q2⟩ := pq
      have hp2 : containsSub p2 phL = false := findSplit_min (by decide) hfs
      have h1 : pyReplaceFirst (A ++ q) phL g = (A ++ (p2 ++ g)) ++ q2 := by
        rw [hfs] at hshift
        simp [pyReplaceFirst, hshift, List.append_assoc]
      have h2 : pyReplaceFirst q phL g = (p2 ++ g) ++ q2 := by
        simp [pyReplaceFirst, hfs, List.append_assoc]
      rw [h1, h2]
      have hA2 : goodPre (A ++ (p2 ++ g)) := goodPre_extend hA hp2 hgne hglb hgrb hgni
      have hbase : goodPre (p2 ++ g) := by
        have := goodPre_extend goodPre_nil hp2 hgne hglb hgrb hgni
        rwa [List.nil_append] at this
      rw [ih (A ++ (p2 ++ g)) q2 hA2 hrest, ih (p2 ++ g) q2 hbase hrest]
      obtain ⟨u, hu⟩ := fillGroups_total gs q2
      rw [hu]
      simp [List.append_assoc]

theorem fillGroups_specFill : ∀ (gs : List (List Char)) (t : List Char),
    (∀ g ∈ gs, g ≠ [] ∧ '{' ∉ g ∧ '}' ∉ g ∧ containsSub phL g = false) →
    fillGroups t (gs.map some) = some (specFill t gs) := by
  intro gs
  induction gs with
  | nil => intro t _; rfl
  | cons g gs ih =>
    intro t hgs
    obtain ⟨hgne, hglb, hgrb, hgni⟩ := hgs g (List.mem_cons_self g gs)
    have hrest : ∀ g' ∈ gs, g' ≠ [] ∧ '{' ∉ g' ∧ '}' ∉ g' ∧ containsSub phL g' = false :=
      fun g' hm => hgs g' (List.mem_cons_of_mem g hm)
    simp only [List.map_cons, fillGroups, specFill]
    cases hfs : findSplit phL t with
    | none =>
      have h2 : pyReplaceFirst t phL g = t := by simp [pyReplaceFirst, hfs]
      rw [h2]
      exact fillGroups_noOcc gs t (by simp [containsSub, hfs])
    | some pq =>
      obtain ⟨p, q⟩ := pq
      have hp : containsSub p phL = false := findSplit_min (by decide) hfs
      have h2 : pyReplaceFirst t phL g = (p ++ g) ++ q := by
        simp [pyReplaceFirst, hfs, List.append_assoc]
      have hbase : goodPre (p ++ g) := by
        have := goodPre_extend goodPre_nil hp hgne hglb hgrb hgni
        rwa [List.nil_append] at this
      rw [h2, fillGroups_append gs (p ++ g) q hbase hrest, ih q hrest]
      simp [List.append_assoc]

/-! ### Template and substitution-loop lemmas -/

theorem parseTemplate_lit : ∀ (t : List Char), (∀ c ∈ t, c ≠ '\\') →
    parseTemplate t = some (t.map TItem.lit) := by
  intro t
  induction t with
  | nil => intro _; rfl
  | cons c rest ih =>
    intro h
    have hc : c ≠ '\\' := h c (List.mem_cons_self c rest)
    have hr := ih (fun d hd => h d (List.mem_cons_of_mem c hd))
    rw [parseTemplate.eq_def]
    simp [hc, hr]

theorem expandTemplate_lit : ∀ (t : List Char) (md : MatchData),
    expandTemplate (t.map TItem.lit) md = some t := by
  intro t
  induction t with
  | nil => intro md; rfl
  | cons c rest ih => intro md; simp [expandTemplate, ih md]

theorem subLoop_congr {r : RE} {n : Nat} {cb1 cb2 : MatchData → Option (List Char)}
    (h : ∀ md, cb1 md = cb2 md) :
    ∀ (fuel : Nat) (s : List Char), subLoop r n cb1 fuel s = subLoop r n cb2 fuel s := by
  intro fuel
  induction fuel with
  | zero => intro s; rfl
  | succ fuel ih =>
    intro s
    cases hss : searchSplit r n s with
    | none => simp [subLoop, hss]
    | some pmr =>
      obtain ⟨pre, md, rest⟩ := pmr
      simp only [subLoop, hss]
      rw [h md]
      cases cb2 md with
      | none => rfl
      | some rep =>
        cases md.whole.isEmpty with
        | true =>
          cases rest with
          | nil => simp
          | cons c rest2 => simp [ih rest2]
        | false => simp [ih rest]

/-! ### Search and scan lemmas -/

theorem searchSplit_isSome_iff {r : RE} {n : Nat} : ∀ (s : List Char),
    (searchSplit r n s).isSome = true ↔ ∃ i, (matchAt r n (s.drop i)).isSome = true := by
  intro s
  induction s with
  | nil =>
    simp only [searchSplit]
    cases hm : matchAt r n [] with
    | none => simp [List.drop_nil, hm]
    | some v => simp [List.drop_nil, hm]
  | cons c t ih =>
    simp only [searchSplit]
    cases hm : matchAt r n (c :: t) with
    | some v =>
      obtain ⟨md, rest⟩ := v
      constructor
      · intro _
        exact ⟨0, by rw [List.drop_zero, hm]; rfl⟩
      · intro _
        rfl
    | none =>
      constructor
      · intro hx
        have : (searchSplit r n t).isSome = true := by
          cases hy : searchSplit r n t with
          | none => rw [hy] at hx; simp at hx
          | some v => rfl
        obtain ⟨i, hi⟩ := ih.mp this
        exact ⟨i + 1, by simpa using hi⟩
      · intro ⟨i, hi⟩
        cases i with
        | zero => rw [List.drop_zero] at hi; rw [hm] at hi; simp at hi
        | succ j =>
          rw [List.drop_succ_cons] at hi
          have := ih.mpr ⟨j, hi⟩
          cases hy : searchSplit r n t with
          | none => rw [hy] at this; simp at this
          | some v => simp

/-! ### Replacement-engine lemmas -/

theorem applyRules_append (r1 r2 : List (List Char × List Char)) (rm : Bool) (t : List Char) :
    applyRules (r1 ++ r2) rm t = applyRules r2 rm (applyRules r1 rm t) :=
  List.foldl_append (applyOneRule rm) t r1 r2

theorem applyOneRule_literal_skip {t : List Char} {rule : List Char × List Char}
    (h : containsSub t rule.1 = false) : applyOneRule false t rule = t := by
  simp [applyOneRule, tryApplyRule, h]

theorem applyRules_noOcc : ∀ (rules : List (List Char × List Char)) (t : List Char),
    (∀ r ∈ rules, containsSub t r.1 = false) → applyRules rules false t = t := by
  intro rules
  induction rules with
  | nil => intro t _; rfl
  | cons r rs ih =>
    intro t h
    have h1 : applyOneRule false t r = t := applyOneRule_literal_skip (h r (List.mem_cons_self r rs))
    have h2 : applyRules (r :: rs) false t = applyRules rs false (applyOneRule false t r) := rfl
    rw [h2, h1]
    exact ih t (fun rr hm => h rr (List.mem_cons_of_mem r hm))

/-! ### Scan-pipeline lemmas -/

theorem foldl_hits {α β : Type} (p : α → Bool) (x : β) :
    ∀ (xs : List α) (acc : List β),
      xs.foldl (fun a y => if p y then a ++ [x] else a) acc
        = acc ++ (xs.filter p).map (fun _ => x) := by
  intro xs
  induction xs with
  | nil => intro acc; simp
  | cons y ys ih =>
    intro acc
    cases hp : p y <;> simp [List.filter_cons, hp, ih, List.append_assoc]

theorem foldl_guard_append {α β : Type} (P : α → Bool) (body : α → List β) :
    ∀ (xs : List α) (acc : List β),
      xs.foldl (fun a x => if P x then a ++ body x else a) acc
        = acc ++ xs.flatMap (fun x => if P x then body x else []) := by
  intro xs
  induction xs with
  | nil => intro acc; simp
  | cons x ys ih =>
    intro acc
    cases hp : P x <;> simp [hp, ih, List.append_assoc]

theorem flatMap_congr {α β : Type} {f g : α → List β} :
    ∀ xs : List α, (∀ x ∈ xs, f x = g x) → xs.flatMap f = xs.flatMap g := by
  intro xs
  induction xs with
  | nil => intro _; rfl
  | cons x ys ih =>
    intro h
    simp only [List.flatMap_cons]
    rw [h x (List.mem_cons_self x ys), ih (fun y hy => h y (List.mem_cons_of_mem x hy))]

theorem splitNL_ne_nil : ∀ s : List Char, splitNL s ≠ [] := by
  intro s
  cases s with
  | nil => simp [splitNL]
  | cons c rest =>
    simp only [splitNL]
    cases splitNL rest with
    | nil => simp
    | cons h t => by_cases hc : c = '\n' <;> simp [hc]

theorem splitNL_no_nl : ∀ l : List Char, '\n' ∉ l → splitNL l = [l] := by
  intro l
  induction l with
  | nil => intro _; rfl
  | cons c rest ih =>
    intro h
    have hc : c ≠ '\n' := fun hh => h (hh ▸ List.mem_cons_self c rest)
    have hr : splitNL rest = [rest] := ih (fun hm => h (List.mem_cons_of_mem c hm))
    simp [splitNL, hr, hc]

theorem splitNL_prepend : ∀ (l : List Char), '\n' ∉ l →
    ∀ (r h0 : List Char) (t0 : List (List Char)), splitNL r = (h0 :: t0 : List (List Char)) →
      splitNL (l ++ r) = (l ++ h0) :: t0 := by
  intro l
  induction l with
  | nil =>
    intro _ r h0 t0 hr
    simpa using hr
  | cons c cl ih =>
    intro hnl r h0 t0 hr
    have hc : c ≠ '\n' := fun hh => hnl (hh ▸ List.mem_cons_self c cl)
    have hx := ih (fun hm => hnl (List.mem_cons_of_mem c hm)) r h0 t0 hr
    simp [splitNL, hx, hc]

theorem joinNL_cons : ∀ (x : List Char) (y : List Char) (ys : List (List Char)),
    joinNL (x :: y :: ys) = x ++ '\n' :: joinNL (y :: ys) := by
  intro x y ys
  rfl

theorem splitNL_joinNL : ∀ (lines : List (List Char)), (∀ l ∈ lines, '\n' ∉ l) →
    lines ≠ [] → splitNL (joinNL lines) = lines := by
  intro lines
  induction lines with
  | nil => intro _ h; exact absurd rfl h
  | cons l ls ih =>
    intro hnl _
    cases ls with
    | nil => exact splitNL_no_nl l (hnl l (List.mem_cons_self l []))
    | cons l2 ls2 =>
      have hr := ih (fun x hx => hnl x (List.mem_cons_of_mem l hx)) (by simp)
      have hsp : splitNL ('\n' :: joinNL (l2 :: ls2))
          = [] :: splitNL (joinNL (l2 :: ls2)) := by
        simp only [splitNL]
        cases hx : splitNL (joinNL (l2 :: ls2)) with
        | nil => exact absurd hx (splitNL_ne_nil _)
        | cons h0 t0 => simp
      have hpre := splitNL_prepend l (hnl l (List.mem_cons_self l (l2 :: ls2)))
        ('\n' :: joinNL (l2 :: ls2)) [] (splitNL (joinNL (l2 :: ls2))) hsp
      rw [joinNL_cons, hpre, List.append_nil, hr]

theorem infix_joinNL : ∀ (lines : List (List Char)) (l : List Char), l ∈ lines →
    l <:+: joinNL lines := by
  intro lines
  induction lines with
  | nil => intro l h; simp at h
  | cons x ls ih =>
    intro l h
    cases ls with
    | nil =>
      have : l = x := by simpa using h
      subst this
      exact List.infix_refl _
    | cons y ys =>
      rcases List.mem_cons.mp h with rfl | hm
      · rw [joinNL_cons]
        exact (List.prefix_append l ('\n' :: joinNL (y :: ys))).isInfix
      · have h1 := ih l hm
        have h2 : joinNL (y :: ys) <:+: joinNL (x :: y :: ys) := by
          rw [joinNL_cons]
          exact ((List.suffix_cons '\n' (joinNL (y :: ys))).trans
            (List.suffix_append x ('\n' :: joinNL (y :: ys)))).isInfix
        exact h1.trans h2

theorem containsSub_line_full {lines : List (List Char)} {l p : List Char} (hl : l ∈ lines)
    (h : containsSub l p = true) : containsSub (joinNL lines) p = true :=
  containsSub_iff.mpr ((containsSub_iff.mp h).trans (infix_joinNL lines l hl))

theorem scan_v3_spec (patterns lines : List (List Char)) (hnl : ∀ l ∈ lines, '\n' ∉ l)
    (hne : lines ≠ []) :
    scan_documents_matched_lines patterns lines
      = patterns.flatMap (fun token => (lines.filter (fun l => containsSub l token)).map pyStrip) := by
  unfold scan_documents_matched_lines
  rw [foldl_guard_append]
  rw [List.nil_append]
  apply flatMap_congr
  intro token _
  rw [splitNL_joinNL lines hnl hne]
  cases hg : containsSub (joinNL lines) token with
  | true => simp
  | false =>
    have hfil : lines.filter (fun l => containsSub l token) = [] := by
      rw [List.filter_eq_nil_iff]
      intro l hl hc
      rw [containsSub_line_full hl hc] at hg
      exact Bool.noConfusion hg
    simp [hfil]

theorem get_matching_lines_spec (patterns : List (List Char)) :
    ∀ (lines : List (List Char)) (acc : List (List Char)),
      lines.foldl
        (fun acc line =>
          patterns.foldl
            (fun acc2 p => if v1LineHit p line then acc2 ++ [pyStrip line] else acc2) acc) acc
        = acc ++ lines.flatMap
            (fun l => (patterns.filter (fun p => v1LineHit p l)).map (fun _ => pyStrip l)) := by
  intro lines
  induction lines with
  | nil => intro acc; simp
  | cons l ls ih =>
    intro acc
    rw [List.foldl_cons, foldl_hits (fun p => v1LineHit p l) (pyStrip l) patterns acc, ih]
    simp [List.append_assoc]

/-! ### Batch-driver lemmas -/

theorem fsLookup_append_right : ∀ (fs : List (String × Document)) (q : String),
    (fsLookup fs q).isSome = true → ∀ (l : List (String × Document)),
      fsLookup (fs ++ l) q = fsLookup fs q := by
  intro fs
  induction fs with
  | nil => intro q h; simp [fsLookup] at h
  | cons e rest ih =>
    intro q h l
    obtain ⟨k, d⟩ := e
    by_cases hk : k = q
    · simp [fsLookup, hk]
    · simp only [fsLookup, if_neg hk] at h
      simp only [List.cons_append, fsLookup, if_neg hk]
      exact ih q h l

theorem fsLookup_update_isSome : ∀ (fs : List (String × Document)) (p : String) (d : Document)
    (q : String), (fsLookup fs q).isSome = true →
    (fsLookup (fsUpdate fs p d) q).isSome = true := by
  intro fs
  induction fs with
  | nil => intro p d q h; simp [fsLookup] at h
  | cons e rest ih =>
    intro p d q h
    obtain ⟨k, dk⟩ := e
    by_cases hkp : k = p
    · by_cases hkq : k = q
      · subst hkq
        simp [fsUpdate, fsLookup, hkp]
      · simp only [fsLookup, if_neg hkq] at h
        simp only [fsUpdate, if_pos hkp, fsLookup, if_neg hkq]
        exact h
    · by_cases hkq : k = q
      · subst hkq
        simp [fsUpdate, fsLookup, hkp]
      · simp only [fsLookup, if_neg hkq] at h
        simp only [fsUpdate, if_neg hkp, fsLookup, if_neg hkq]
        exact ih p d q h

theorem procOne_processed (mode : RunMode) (rules : List (List Char × List Char)) (rm : Bool)
    (st : BatchState) (p : String) (doc : Document) :
    (procOne mode rules rm st p doc).processed = st.processed + 1 := by
  unfold procOne
  cases mode <;> by_cases h01 : 0 < (perform_replacement_in_doc doc rules rm).1 <;>
    simp [h01]

theorem procOne_opened (mode : RunMode) (rules : List (List Char × List Char)) (rm : Bool)
    (st : BatchState) (p : String) (doc : Document) :
    (procOne mode rules rm st p doc).opened = st.opened ++ [p] := by
  unfold procOne
  cases mode <;> by_cases h01 : 0 < (perform_replacement_in_doc doc rules rm).1 <;>
    simp [h01]

theorem procOne_stopped (mode : RunMode) (rules : List (List Char × List Char)) (rm : Bool)
    (st : BatchState) (p : String) (doc : Document) :
    (procOne mode rules rm st p doc).stoppedEarly = st.stoppedEarly := by
  unfold procOne
  cases mode <;> by_cases h01 : 0 < (perform_replacement_in_doc doc rules rm).1 <;>
    simp [h01]

theorem procOne_lookup (mode : RunMode) (rules : List (List Char × List Char)) (rm : Bool)
    (st : BatchState) (p : String) (doc : Document) (q : String)
    (h : (fsLookup st.fs q).isSome = true) :
    (fsLookup (procOne mode rules rm st p doc).fs q).isSome = true := by
  unfold procOne
  cases mode with
  | dryRun =>
    by_cases h01 : 0 < (perform_replacement_in_doc doc rules rm).1 <;> simp [h01, h]
  | copies =>
    by_cases h01 : 0 < (perform_replacement_in_doc doc rules rm).1
    · simp only [if_pos h01]
      rw [fsLookup_append_right st.fs q h]
      exact h
    · simp [h01, h]
  | inPlace =>
    by_cases h01 : 0 < (perform_replacement_in_doc doc rules rm).1
    · simp only [if_pos h01]
      exact fsLookup_update_isSome st.fs p _ q h
    · simp [h01, h]

theorem procOne_dry_fs (rules : List (List Char × List Char)) (rm : Bool)
    (st : BatchState) (p : String) (doc : Document) :
    (procOne RunMode.dryRun rules rm st p doc).fs = st.fs := by
  unfold procOne
  by_cases h01 : 0 < (perform_replacement_in_doc doc rules rm).1 <;> simp [h01]

theorem procOne_dry_out (rules : List (List Char × List Char)) (rm : Bool)
    (st : BatchState) (p : String) (doc : Document) :
    (procOne RunMode.dryRun rules rm st p doc).outDirCreated = st.outDirCreated := by
  unfold procOne
  by_cases h01 : 0 < (perform_replacement_in_doc doc rules rm).1 <;> simp [h01]

theorem procOne_dry_modified (rules : List (List Char × List Char)) (rm : Bool)
    (st : BatchState) (p : String) (doc : Document) :
    (procOne RunMode.dryRun rules rm st p doc).modified
      = st.modified + (if 0 < (perform_replacement_in_doc doc rules rm).1 then 1 else 0) := by
  unfold procOne
  by_cases h01 : 0 < (perform_replacement_in_doc doc rules rm).1 <;> simp [h01]

theorem procFiles_dry_fs (rules : List (List Char × List Char)) (rm : Bool)
    (stopFlag : Nat → Bool) : ∀ (files : List String) (i : Nat) (st : BatchState),
    (procFiles RunMode.dryRun rules rm stopFlag files i st).fs = st.fs := by
  intro files
  induction files with
  | nil => intro i st; rfl
  | cons p rest ih =>
    intro i st
    simp only [procFiles]
    cases hstop : stopFlag i with
    | true => simp
    | false =>
      simp only [Bool.false_eq_true, if_false]
      cases hfs : fsLookup st.fs p with
      | none => exact ih (i + 1) st
      | some doc => rw [ih (i + 1) (procOne RunMode.dryRun rules rm st p doc), procOne_dry_fs]

theorem procFiles_dry_out (rules : List (List Char × List Char)) (rm : Bool)
    (stopFlag : Nat → Bool) : ∀ (files : List String) (i : Nat) (st : BatchState),
    (procFiles RunMode.dryRun rules rm stopFlag files i st).outDirCreated = st.outDirCreated := by
  intro files
  induction files with
  | nil => intro i st; rfl
  | cons p rest ih =>
    intro i st
    simp only [procFiles]
    cases hstop : stopFlag i with
    | true => simp
    | false =>
      simp only [Bool.false_eq_true, if_false]
      cases hfs : fsLookup st.fs p with
      | none => exact ih (i + 1) st
      | some doc => rw [ih (i + 1) (procOne RunMode.dryRun rules rm st p doc), procOne_dry_out]

theorem procFiles_dry_modified (rules : List (List Char × List Char)) (rm : Bool)
    (stopFlag : Nat → Bool) : ∀ (files : List String) (i : Nat) (st : BatchState),
    (procFiles RunMode.dryRun rules rm stopFlag files i st).modified
      = st.modified + specWouldModify rules rm stopFlag files i st.fs := by
  intro files
  induction files with
  | nil => intro i st; simp [procFiles, specWouldModify]
  | cons p rest ih =>
    intro i st
    cases hstop : stopFlag i with
    | true => simp [procFiles, specWouldModify, hstop]
    | false =>
      simp only [procFiles, specWouldModify, hstop, Bool.false_eq_true, if_false]
      cases hfs : fsLookup st.fs p with
      | none => exact ih (i + 1) st
      | some doc =>
        rw [ih (i + 1) (procOne RunMode.dryRun rules rm st p doc), procOne_dry_modified,
          procOne_dry_fs, Nat.add_assoc]

theorem procFiles_stop (mode : RunMode) (rules : List (List Char × List Char)) (rm : Bool)
    (stopFlag : Nat → Bool) :
    ∀ (K : Nat) (files : List String) (i : Nat) (st : BatchState),
      (∀ j, j < K → stopFlag (i + j) = false) → stopFlag (i + K) = true →
      K < files.length → (∀ p ∈ files, (fsLookup st.fs p).isSome = true) →
      (procFiles mode rules rm stopFlag files i st).processed = st.processed + K ∧
      (procFiles mode rules rm stopFlag files i st).opened = st.opened ++ files.take K ∧
      (procFiles mode rules rm stopFlag files i st).stoppedEarly = true := by
  intro K
  induction K with
  | zero =>
    intro files i st _ hK hlen _
    have hsi : stopFlag i = true := by simpa using hK
    cases files with
    | nil => simp at hlen
    | cons p rest =>
      simp only [procFiles, hsi, if_true]
      refine ⟨by simp, by simp, by simp⟩
  | succ K ih =>
    intro files i st hlt hK hlen hex
    cases files with
    | nil => simp at hlen
    | cons p rest =>
      have hstop0 : stopFlag i = false := by
        have := hlt 0 (Nat.succ_pos K)
        simpa using this
      have hp := hex p (List.mem_cons_self p rest)
      cases hfs : fsLookup st.fs p with
      | none => rw [hfs] at hp; simp at hp
      | some doc =>
        simp only [procFiles, hstop0, Bool.false_eq_true, if_false, hfs]
        have hlt2 : ∀ j, j < K → stopFlag (i + 1 + j) = false := by
          intro j hj
          have := hlt (j + 1) (by omega)
          rwa [show i + (j + 1) = i + 1 + j by omega] at this
        have hK2 : stopFlag (i + 1 + K) = true := by
          rw [show i + 1 + K = i + (K + 1) by omega]
          exact hK
        have hlen2 : K < rest.length := by
          simp only [List.length_cons] at hlen
          omega
        have hex2 : ∀ q ∈ rest, (fsLookup (procOne mode rules rm st p doc).fs q).isSome = true :=
          fun q hq => procOne_lookup mode rules rm st p doc q (hex q (List.mem_cons_of_mem p hq))
        obtain ⟨h1, h2, h3⟩ := ih rest (i + 1) (procOne mode rules rm st p doc) hlt2 hK2 hlen2 hex2
        refine ⟨?_, ?_, h3⟩
        · rw [h1, procOne_processed]
          omega
        · rw [h2, procOne_opened]
          simp [List.append_assoc]

/-! ### Counting lemmas for the replacement aggregator -/

theorem procParas_spec (rules : List (List Char × List Char)) (rm : Bool) :
    ∀ (paras : List (List Char)) (idx : Nat),
      (procParas rules rm paras idx).1 = (procParas rules rm paras idx).2.1.length ∧
      (procParas rules rm paras idx).1
        = paras.countP (fun p => decide (applyRules rules rm p ≠ p)) := by
  intro paras
  induction paras with
  | nil => intro idx; simp [procParas]
  | cons p rest ih =>
    intro idx
    obtain ⟨h1, h2⟩ := ih (idx + 1)
    simp only [procParas, List.countP_cons]
    by_cases hch : applyRules rules rm p ≠ p
    · simp only [if_pos hch]
      exact ⟨by simp [h1], by simp [h2, hch]⟩
    · simp only [if_neg hch]
      exact ⟨h1, by simp [h2, hch]⟩

theorem procCellParas_spec (rules : List (List Char × List Char)) (rm : Bool)
    (label : List Char) :
    ∀ (paras : List (List Char)) (idx : Nat),
      (procCellParas rules rm label paras idx).1
        = (procCellParas rules rm label paras idx).2.1.length ∧
      (procCellParas rules rm label paras idx).1
        = paras.countP (fun p => decide (applyRules rules rm p ≠ p)) := by
  intro paras
  induction paras with
  | nil => intro idx; simp [procCellParas]
  | cons p rest ih =>
    intro idx
    obtain ⟨h1, h2⟩ := ih (idx + 1)
    simp only [procCellParas, List.countP_cons]
    by_cases hch : applyRules rules rm p ≠ p
    · simp only [if_pos hch]
      exact ⟨by simp [h1], by simp [h2, hch]⟩
    · simp only [if_neg hch]
      exact ⟨h1, by simp [h2, hch]⟩

theorem procCells_spec (rules : List (List Char × List Char)) (rm : Bool) (label : List Char) :
    ∀ (cells : List (List (List Char))) (idx : Nat),
      (procCells rules rm label cells idx).1 = (procCells rules rm label cells idx).2.1.length ∧
      (procCells rules rm label cells idx).1
        = (cells.map (fun cell =>
            cell.countP (fun p => decide (applyRules rules rm p ≠ p)))).sum := by
  intro cells
  induction cells with
  | nil => intro idx; simp [procCells]
  | cons cell rest ih =>
    intro idx
    obtain ⟨h1, h2⟩ := ih (idx + 1)
    obtain ⟨g1, g2⟩ := procCellParas_spec rules rm
      (label ++ (chars "_cell_" ++ natChars idx)) cell 0
    simp only [procCells, List.map_cons, List.sum_cons]
    exact ⟨by simp [h1, g1], by simp [h2, g2]⟩

theorem procRows_spec (rules : List (List Char × List Char)) (rm : Bool) (label : List Char) :
    ∀ (rows : List (List (List (List Char)))) (idx : Nat),
      (procRows rules rm label rows idx).1 = (procRows rules rm label rows idx).2.1.length ∧
      (procRows rules rm label rows idx).1
        = (rows.map (fun row => (row.map (fun cell =>
            cell.countP (fun p => decide (applyRules rules rm p ≠ p)))).sum)).sum := by
  intro rows
  induction rows with
  | nil => intro idx; simp [procRows]
  | cons row rest ih =>
    intro idx
    obtain ⟨h1, h2⟩ := ih (idx + 1)
    obtain ⟨g1, g2⟩ := procCells_spec rules rm (label ++ (chars "_row_" ++ natChars idx)) row 0
    simp only [procRows, List.map_cons, List.sum_cons]
    exact ⟨by simp [h1, g1], by simp [h2, g2]⟩

theorem procTables_spec (rules : List (List Char × List Char)) (rm : Bool) :
    ∀ (tables : List (List (List (List (List Char))))) (idx : Nat),
      (procTables rules rm tables idx).1 = (procTables rules rm tables idx).2.1.length ∧
      (procTables rules rm tables idx).1
        = (tables.map (fun table => (table.map (fun row => (row.map (fun cell =>
            cell.countP (fun p => decide (applyRules rules rm p ≠ p)))).sum)).sum)).sum := by
  intro tables
  induction tables with
  | nil => intro idx; simp [procTables]
  | cons table rest ih =>
    intro idx
    obtain ⟨h1, h2⟩ := ih (idx + 1)
    obtain ⟨g1, g2⟩ := procRows_spec rules rm (chars "table_" ++ natChars idx) table 0
    simp only [procTables, List.map_cons, List.sum_cons]
    exact ⟨by simp [h1, g1], by simp [h2, g2]⟩

/-! ### Claim theorems -/

/-- C1 counterexample: the v3.0 scan pipeline does not treat patterns as
regular expressions — the pattern `a.c` regex-matches the line `abc`
(as the spec-modelled search and the legacy scanner both show) yet the
v3.0 scan records no matched line for it, because it tests literal
substring containment. -/
theorem claim1_counterexample :
    scan_documents_matched_lines [chars "a.c"] [chars "abc"] = [] ∧
    specRegexSearchHit (chars "a.c") (chars "abc") = true ∧
    get_matching_lines_combined [chars "a.c"] [chars "abc"] = [chars "abc"] ∧
    containsSub (chars "abc") (chars "a.c") = false := by
  refine ⟨by decide, by decide, by decide, by decide⟩

/-- C1 amended: in the v3.0 scan pipeline a pattern matches a line exactly
when it occurs as a literal substring (no regex interpretation), while the
legacy scanner's per-line test follows the spec's regex semantics: it is
an unanchored search succeeding exactly when the pattern matches at some
start position of the line. -/
theorem claim1_amended :
    (∀ p l : List Char, containsSub l p = true ↔ p <:+: l) ∧
    (∀ p l : List Char, v1LineHit p l = specRegexSearchHit p l) ∧
    (∀ (r : RE) (n : Nat) (l : List Char),
      (searchSplit r n l).isSome = true ↔ ∃ i, (matchAt r n (l.drop i)).isSome = true) :=
  ⟨fun _ _ => containsSub_iff, fun _ _ => rfl, fun r n l => searchSplit_isSome_iff l⟩

/-- C1 amended, witness at concrete inputs. -/
theorem claim1_amended_witness :
    (chars "a.c") <:+: (chars "xa.cy") ∧
    (∃ i, (matchAt (RE.chr 'a') 0 ((chars "ba").drop i)).isSome = true) :=
  ⟨(claim1_amended.1 (chars "a.c") (chars "xa.cy")).mp (by decide),
   (claim1_amended.2.2 (RE.chr 'a') 0 (chars "ba")).mp (by decide)⟩

/-- C2: rules are applied sequentially, in insertion order, to the
cumulative text, so a later rule can consume an earlier rule's output; in
particular the rules A→B then B→C rewrite "A" to "C", not "B". -/
theorem claim2_sequential_chaining :
    (∀ (rules1 rules2 : List (List Char × List Char)) (rm : Bool) (t : List Char),
      applyRules (rules1 ++ rules2) rm t = applyRules rules2 rm (applyRules rules1 rm t)) ∧
    applyRules [(chars "A", chars "B"), (chars "B", chars "C")] false (chars "A") = chars "C" ∧
    (applyRules [(chars "A", chars "B"), (chars "B", chars "C")] false (chars "A")
      == chars "B") = false :=
  ⟨applyRules_append, by decide, by decide⟩

/-- C3 counterexample: the rule set {"aa" → "a"} satisfies the claim's side
condition (the target "a" does not contain the source "aa"), yet the
literal pass is not idempotent on "aaa": the first pass yields "aa" and the
second pass changes it again to "a". -/
theorem claim3_counterexample :
    containsSub (chars "a") (chars "aa") = false ∧
    applyRules [(chars "aa", chars "a")] false (chars "aaa") = chars "aa" ∧
    applyRules [(chars "aa", chars "a")] false (chars "aa") = chars "a" ∧
    (chars "a" == chars "aa") = false := by
  refine ⟨by decide, by decide, by decide, by decide⟩

/-- C3 amended: the literal pass is idempotent whenever no rule's source
occurs in the output of the first pass (text already fully migrated); the
original side condition on targets alone does not guarantee this, since a
replacement can juxtapose surrounding characters into a fresh source
occurrence. -/
theorem claim3_amended : ∀ (rules : List (List Char × List Char)) (t : List Char),
    (∀ r ∈ rules, containsSub (applyRules rules false t) r.1 = false) →
    applyRules rules false (applyRules rules false t) = applyRules rules false t :=
  fun rules t h => applyRules_noOcc rules (applyRules rules false t) h

/-- C3 amended, witness: one literal pass of {"x" → "y"} over "x x x"
replaces all occurrences and a second pass changes nothing. -/
theorem claim3_amended_witness :
    applyRules [(chars "x", chars "y")] false
        (applyRules [(chars "x", chars "y")] false (chars "x x x"))
      = applyRules [(chars "x", chars "y")] false (chars "x x x") :=
  claim3_amended [(chars "x", chars "y")] (chars "x x x") (by decide)

/-- C4: with capture groups, the per-match replacement fills successive
placeholder occurrences with successive capture groups (the code's
one-at-a-time filling agrees with the positional reading whenever groups
are non-empty and share no character with the placeholder); with no
groups, every placeholder is replaced by the entire matched substring; and
the two-group example rewrites "foo-bar" to "foo_bar" end to end. -/
theorem claim4_match_placeholder :
    (∀ (t : List Char) (gs : List (List Char)), (∀ g ∈ gs, g ≠ [] ∧ '{' ∉ g ∧ '}' ∉ g ∧ containsSub phL g = false) →
      fillGroups t (gs.map some) = some (specFill t gs)) ∧
    (∀ (target : List Char) (md : MatchData), md.groups = [] →
      replaceWithMatch target md = some (pyReplace target phL md.whole)) ∧
    applyRules [(chars "(\\w+)-(\\w+)", phL ++ '_' :: phL)] true (chars "foo-bar")
      = chars "foo_bar" := by
  refine ⟨fun t gs h => fillGroups_specFill gs t h, ?_, by decide⟩
  intro target md h
  simp [replaceWithMatch, h]

/-- C4 witness: the positional and sequential fillings agree at the
two-group example and produce "foo_bar". -/
theorem claim4_witness :
    fillGroups (phL ++ '_' :: phL) [some (chars "foo"), some (chars "bar")]
      = some (specFill (phL ++ '_' :: phL) [chars "foo", chars "bar"]) ∧
    replaceWithMatch (chars "Q") { whole := chars "m", groups := [] }
      = some (pyReplace (chars "Q") phL (chars "m")) ∧
    specFill (phL ++ '_' :: phL) [chars "foo", chars "bar"] = chars "foo_bar" :=
  ⟨claim4_match_placeholder.1 (phL ++ '_' :: phL) [chars "foo", chars "bar"] (by decide),
   claim4_match_placeholder.2.1 (chars "Q") { whole := chars "m", groups := [] } rfl,
   by decide⟩

/-- C5 counterexample: in regex mode with no placeholder, the target is a
replacement template, not literal text — the rule {"(a)" → "\1x"} applied
to "a" produces "ax" (the backreference is expanded), not the verbatim
target "\1x" that the spec-modelled verbatim substitution produces. -/
theorem claim5_counterexample :
    applyOneRule true (chars "a") (chars "(a)", chars "\\1x") = chars "ax" ∧
    specVerbatimSub (RE.seq (RE.group 1 (RE.seq (RE.chr 'a') RE.eps)) RE.eps) 1
        (chars "\\1x") (chars "a") = chars "\\1x" ∧
    parseRE (chars "(a)")
      = some (RE.seq (RE.group 1 (RE.seq (RE.chr 'a') RE.eps)) RE.eps, 1) ∧
    (chars "ax" == chars "\\1x") = false := by
  refine ⟨by decide, by decide, by decide, by decide⟩

/-- C5 amended: the no-placeholder regex branch substitutes every match
with the target expanded as a replacement template; for targets containing
no backslash the expansion is the identity, so such targets do appear
verbatim at every match. -/
theorem claim5_amended : ∀ (src tgt t : List Char) (r : RE) (n : Nat),
    parseRE src = some (r, n) → containsSub tgt phL = false → (∀ c ∈ tgt, c ≠ '\\') →
    applyOneRule true t (src, tgt) = specVerbatimSub r n tgt t := by
  intro src tgt t r n hp hph hbs
  have h1 : tryApplyRule true t (src, tgt)
      = subLoop r n (fun _ => some tgt) (t.length + 1) t := by
    simp only [tryApplyRule, if_true]
    rw [hp, hph, parseTemplate_lit tgt hbs]
    simp only [Bool.false_eq_true, if_false]
    exact subLoop_congr (fun md => expandTemplate_lit tgt md) (t.length + 1) t
  simp only [applyOneRule, h1, specVerbatimSub]

/-- C5 amended, witness: a backslash-free target is inserted verbatim for
every match of "(a)" in "aba". -/
theorem claim5_amended_witness :
    applyOneRule true (chars "aba") (chars "(a)", chars "Q")
      = specVerbatimSub (RE.seq (RE.group 1 (RE.seq (RE.chr 'a') RE.eps)) RE.eps) 1
          (chars "Q") (chars "aba") :=
  claim5_amended (chars "(a)") (chars "Q") (chars "aba")
    (RE.seq (RE.group 1 (RE.seq (RE.chr 'a') RE.eps)) RE.eps) 1
    (by decide) (by decide) (by decide)

/-- C6: a rule whose source fails to compile (invalid regex) is skipped in
regex mode — dropping it from the rule list does not change the result —
and the same holds for a rule whose application errors on the text it is
given; the remaining rules still apply and nothing escapes the paragraph. -/
theorem claim6_invalid_rule_skip :
    (∀ (pre post : List (List Char × List Char)) (src tgt t : List Char),
      parseRE src = none →
      applyRules (pre ++ (src, tgt) :: post) true t = applyRules (pre ++ post) true t) ∧
    (∀ (pre post : List (List Char × List Char)) (rule : List Char × List Char) (t : List Char),
      tryApplyRule true (applyRules pre true t) rule = none →
      applyRules (pre ++ rule :: post) true t = applyRules (pre ++ post) true t) := by
  have key : ∀ (pre post : List (List Char × List Char)) (rule : List Char × List Char)
      (t : List Char),
      tryApplyRule true (applyRules pre true t) rule = none →
      applyRules (pre ++ rule :: post) true t = applyRules (pre ++ post) true t := by
    intro pre post rule t h0
    rw [applyRules_append, applyRules_append]
    have hstep : applyRules (rule :: post) true (applyRules pre true t)
        = applyRules post true (applyOneRule true (applyRules pre true t) rule) := rfl
    rw [hstep, show applyOneRule true (applyRules pre true t) rule = applyRules pre true t by
      simp [applyOneRule, h0]]
  refine ⟨fun pre post src tgt t hp => key pre post (src, tgt) t ?_, key⟩
  simp [tryApplyRule, hp]

/-- C6 witness: the invalid pattern "(" is skipped while the valid rule
still applies. -/
theorem claim6_witness :
    (applyRules [(chars "a", chars "b"), (chars "(", chars "z")] true (chars "aa")
      = applyRules [(chars "a", chars "b")] true (chars "aa")) ∧
    (applyRules [(chars "(", chars "z")] true (chars "aa")
      = applyRules [] true (chars "aa")) :=
  ⟨claim6_invalid_rule_skip.1 [(chars "a", chars "b")] [] (chars "(") (chars "z") (chars "aa")
    (by decide),
   claim6_invalid_rule_skip.2 [] [] (chars "(", chars "z") (chars "aa") (by decide)⟩

/-- C7: in Dry Run mode no document is saved and no output directory is
created — the file system is returned unchanged — while would-be changes
are still computed and counted file by file. -/
theorem claim7_dry_run_frame :
    ∀ (rules : List (List Char × List Char)) (rm : Bool) (stopFlag : Nat → Bool)
      (files : List String) (fs : List (String × Document)),
      (process_replacements RunMode.dryRun rules rm stopFlag files fs).fs = fs ∧
      (process_replacements RunMode.dryRun rules rm stopFlag files fs).outDirCreated = false ∧
      (process_replacements RunMode.dryRun rules rm stopFlag files fs).modified
        = specWouldModify rules rm stopFlag files 0 fs := by
  intro rules rm stopFlag files fs
  refine ⟨procFiles_dry_fs rules rm stopFlag files 0 (initState fs),
    procFiles_dry_out rules rm stopFlag files 0 (initState fs), ?_⟩
  have h := procFiles_dry_modified rules rm stopFlag files 0 (initState fs)
  simpa [initState] using h

/-- C8: if the stop flag first reads true at file boundary K (with K < N
files, all present), the batch processes exactly K files, opens exactly
the first K, and records the stop. -/
theorem claim8_stop_cooperativity :
    ∀ (mode : RunMode) (rules : List (List Char × List Char)) (rm : Bool)
      (stopFlag : Nat → Bool) (files : List String) (fs : List (String × Document)) (K : Nat),
      (∀ j, j < K → stopFlag j = false) → stopFlag K = true → K < files.length →
      (∀ p ∈ files, (fsLookup fs p).isSome = true) →
      (process_replacements mode rules rm stopFlag files fs).processed = K ∧
      (process_replacements mode rules rm stopFlag files fs).opened = files.take K ∧
      (process_replacements mode rules rm stopFlag files fs).stoppedEarly = true := by
  intro mode rules rm stopFlag files fs K h1 h2 h3 h4
  obtain ⟨a, b, c⟩ := procFiles_stop mode rules rm stopFlag K files 0 (initState fs)
    (by intro j hj; simpa using h1 j hj) (by simpa using h2) h3 (by simpa [initState] using h4)
  exact ⟨by simpa [initState] using a, by simpa [initState] using b, c⟩

/-- C8 witness: three loaded files with a stop requested after two
completed files give exactly two processed and two opened files. -/
theorem claim8_witness :
    (process_replacements RunMode.dryRun [] false (fun i => decide (2 ≤ i))
        ["f1", "f2", "f3"]
        [("f1", ⟨[], []⟩), ("f2", ⟨[], []⟩), ("f3", ⟨[], []⟩)]).processed = 2 ∧
    (process_replacements RunMode.dryRun [] false (fun i => decide (2 ≤ i))
        ["f1", "f2", "f3"]
        [("f1", ⟨[], []⟩), ("f2", ⟨[], []⟩), ("f3", ⟨[], []⟩)]).opened = ["f1", "f2"] ∧
    (process_replacements RunMode.dryRun [] false (fun i => decide (2 ≤ i))
        ["f1", "f2", "f3"]
        [("f1", ⟨[], []⟩), ("f2", ⟨[], []⟩), ("f3", ⟨[], []⟩)]).stoppedEarly = true :=
  claim8_stop_cooperativity RunMode.dryRun [] false (fun i => decide (2 ≤ i))
    ["f1", "f2", "f3"] [("f1", ⟨[], []⟩), ("f2", ⟨[], []⟩), ("f3", ⟨[], []⟩)] 2
    (by decide) (by decide) (by decide) (by decide)

/-- C9 counterexample: with patterns ["b", "a"] over the document lines
["a", "b"], the v3.0 scanner records ["b", "a"] (pattern-major), not the
document-order sequence ["a", "b"] required by the claim. -/
theorem claim9_counterexample :
    scan_documents_matched_lines [chars "b", chars "a"] [chars "a", chars "b"]
      = [chars "b", chars "a"] ∧
    specDocOrderExcerpts [chars "b", chars "a"] [chars "a", chars "b"]
      = [chars "a", chars "b"] ∧
    (([chars "b", chars "a"] : List (List Char)) == [chars "a", chars "b"]) = false := by
  refine ⟨by decide, by decide, by decide⟩

/-- C9 amended: excerpts appear once per (line, pattern) hit with
duplicates preserved; the legacy scanner emits them line-major (document
order), while the v3.0 scanner emits them pattern-major: grouped by
pattern in configured order, document order within each pattern. -/
theorem claim9_amended :
    (∀ (patterns lines : List (List Char)), (∀ l ∈ lines, '\n' ∉ l) → lines ≠ [] →
      scan_documents_matched_lines patterns lines
        = patterns.flatMap (fun token =>
            (lines.filter (fun l => containsSub l token)).map pyStrip)) ∧
    (∀ (patterns lines : List (List Char)),
      get_matching_lines_combined patterns lines
        = lines.flatMap (fun l =>
            (patterns.filter (fun p => v1LineHit p l)).map (fun _ => pyStrip l))) := by
  constructor
  · exact scan_v3_spec
  · intro patterns lines
    unfold get_matching_lines_combined
    rw [get_matching_lines_spec patterns lines []]
    simp

/-- C9 amended, witness at the counterexample's inputs. -/
theorem claim9_amended_witness :
    scan_documents_matched_lines [chars "b", chars "a"] [chars "a", chars "b"]
      = ([chars "b", chars "a"]).flatMap (fun token =>
          (([chars "a", chars "b"]).filter (fun l => containsSub l token)).map pyStrip) :=
  claim9_amended.1 [chars "b", chars "a"] [chars "a", chars "b"] (by decide) (by decide)

/-- C10: `perform_replacement_in_doc` returns a replacement count equal to
the length of its detail list, and both equal the number of paragraphs
(top-level or table-cell) whose text changed — not the number of
individual token substitutions. -/
theorem claim10_count_invariant :
    ∀ (doc : Document) (rules : List (List Char × List Char)) (rm : Bool),
      (perform_replacement_in_doc doc rules rm).1
        = (perform_replacement_in_doc doc rules rm).2.1.length ∧
      (perform_replacement_in_doc doc rules rm).1 = changedParaCount doc rules rm := by
  intro doc rules rm
  obtain ⟨p1, p2⟩ := procParas_spec rules rm doc.paragraphs 0
  obtain ⟨t1, t2⟩ := procTables_spec rules rm doc.tables 0
  unfold perform_replacement_in_doc changedParaCount
  constructor
  · simp [p1, t1]
  · simp [p2, t2]

end DocX
